import Mathlib

/-!
Shallow embedding of `src/assisted_installer_controller/assisted_installer_controller.go`
(the assisted-installer controller: node status reconciler, CSR approver,
bare-metal-host status synchronizer, post-install finalizer).

External collaborators (inventory client, Kubernetes client, wall clock, JSON
decoding) are modelled as oracle inputs: per-iteration response values for each
call the code makes.  Each loop of the Go code becomes a structurally recursive
function over the list of responses it would consume; an `Option` result is
`none` when the (unbounded) Go loop would not terminate within the given
responses.  Observable side effects (inventory/Kubernetes calls) are collected
into event traces.
-/

namespace AssistedInstaller

/-- `models.HostStatusDisabled` -/
def hostStatusDisabled : String := "disabled"
/-- `models.HostStatusError` -/
def hostStatusError : String := "error"
/-- `models.HostStatusInstalled` -/
def hostStatusInstalled : String := "installed"
/-- `models.HostStageDone` -/
def hostStageDone : String := "Done"
/-- `models.ClusterStatusFinalizing` -/
def clusterStatusFinalizing : String := "finalizing"
/-- `certificatesv1beta1.CertificateApproved` condition type -/
def certificateApproved : String := "Approved"
/-- The pod phase checked by `waitForConsole` -/
def podRunning : String := "Running"

/-- The `ignoreStatuses` slice built at the top of `WaitAndUpdateNodesStatus`. -/
def ignoreStatuses : List String :=
  [hostStatusDisabled, hostStatusError, hostStatusInstalled]

/-! ## Node Status Reconciler (`WaitAndUpdateNodesStatus`) -/

/-- One iteration's oracle responses for `WaitAndUpdateNodesStatus`:
`hosts` is the map returned by `c.ic.GetHosts(ignoreStatuses)` (an association
list from node name to inventory host id, mirroring `map[string]HostData`),
`hostsErr` is whether that call returned a non-nil error, and `nodes` is the
result of `c.kc.ListNodes()` (`none` = the call errored, `some` = the node
names listed). -/
structure NodeLoopIter where
  hosts : List (String × String)
  hostsErr : Bool
  nodes : Option (List String)
deriving DecidableEq, Repr

/-- Go map indexing `assistedInstallerNodesMap[node.Name]`, on the association
list representing the map (keys are unique in a Go map; lookup returns the
binding when present). -/
def lookupHost : List (String × String) → String → Option String
  | [], _ => none
  | (k, v) :: hs, n => if k = n then some v else lookupHost hs n

/-- Observable calls made inside one iteration of `WaitAndUpdateNodesStatus`:
`update n hid stage` is `c.ic.UpdateHostInstallProgress(hid, stage, "")` issued
for node `n`, and `configuringHelper hosts` is the call
`c.updateConfiguringStatusIfNeeded(assistedInstallerNodesMap)`. -/
inductive NEv where
  | update (name hostId stage : String)
  | configuringHelper (hosts : List (String × String))
deriving DecidableEq, Repr

/-- The `for _, node := range nodes.Items` body of `WaitAndUpdateNodesStatus`:
for each listed node, look it up in the host map; on a hit, issue one
stage-update call to `models.HostStageDone` (an update error only logs and
`continue`s, so the call is issued either way). -/
def updateCalls (hm : List (String × String)) (nodes : List String) : List NEv :=
  nodes.filterMap (fun n =>
    (lookupHost hm n).map (fun hid => NEv.update n hid hostStageDone))

/-- The calls made by one non-terminating iteration of
`WaitAndUpdateNodesStatus` after the emptiness check: if `ListNodes` errors the
code `continue`s (no updates, and `updateConfiguringStatusIfNeeded` is NOT
reached); otherwise the per-node update pass runs and then
`updateConfiguringStatusIfNeeded` is called with the current host map. -/
def nodeIterEvents (it : NodeLoopIter) : List NEv :=
  match it.nodes with
  | none => []
  | some ns => updateCalls it.hosts ns ++ [NEv.configuringHelper it.hosts]

/-- The outer `for { ... }` of `WaitAndUpdateNodesStatus`, driven by the list
of per-iteration oracle responses.  Returns `some i` when the loop `break`s at
iteration `i` (which the code does exactly when `len(assistedInstallerNodesMap)
== 0`, the returned `GetHosts` error being only logged), `none` when the given
iterations are exhausted without a break. -/
def runNodeLoop : List NodeLoopIter → Option Nat
  | [] => none
  | it :: its =>
    if it.hosts.isEmpty then some 0
    else (runNodeLoop its).map (· + 1)

/-! ### Helper lemmas about `updateCalls` -/

/-- Predicate picking out update calls issued for node name `m`. -/
def isUpdateFor (m : String) : NEv → Bool
  | NEv.update n _ _ => n == m
  | _ => false

@[simp] theorem isUpdateFor_update (m n hid st : String) :
    isUpdateFor m (NEv.update n hid st) = (n == m) := rfl

@[simp] theorem isUpdateFor_helper (m : String) (hs : List (String × String)) :
    isUpdateFor m (NEv.configuringHelper hs) = false := rfl

theorem updateCalls_nil (hm : List (String × String)) : updateCalls hm [] = [] := rfl

theorem updateCalls_cons_none (hm : List (String × String)) (n : String)
    (ns : List String) (h : lookupHost hm n = none) :
    updateCalls hm (n :: ns) = updateCalls hm ns := by
  simp [updateCalls, List.filterMap_cons, h]

theorem updateCalls_cons_some (hm : List (String × String)) (n hid : String)
    (ns : List String) (h : lookupHost hm n = some hid) :
    updateCalls hm (n :: ns) =
      NEv.update n hid hostStageDone :: updateCalls hm ns := by
  simp [updateCalls, List.filterMap_cons, h]

theorem updateCalls_filter_of_not_mem (hm : List (String × String)) (m : String) :
    ∀ nodes : List String, m ∉ nodes →
      (updateCalls hm nodes).filter (isUpdateFor m) = [] := by
  intro nodes
  induction nodes with
  | nil => intro _; rfl
  | cons n ns ih =>
    intro hnm
    have hne : n ≠ m := fun h => hnm (h ▸ List.mem_cons_self n ns)
    have hns : m ∉ ns := fun h => hnm (List.mem_cons_of_mem _ h)
    cases h : lookupHost hm n with
    | none => rw [updateCalls_cons_none hm n ns h]; exact ih hns
    | some hid =>
      rw [updateCalls_cons_some hm n hid ns h, List.filter_cons]
      simp only [isUpdateFor_update, beq_eq_false_iff_ne, ne_eq, hne,
        not_false_eq_true, if_neg, beq_iff_eq, if_false]
      exact ih hns

theorem updateCalls_filter_of_lookup_none (hm : List (String × String)) (m : String)
    (hl : lookupHost hm m = none) :
    ∀ nodes : List String, (updateCalls hm nodes).filter (isUpdateFor m) = [] := by
  intro nodes
  induction nodes with
  | nil => rfl
  | cons n ns ih =>
    cases h : lookupHost hm n with
    | none => rw [updateCalls_cons_none hm n ns h]; exact ih
    | some hid =>
      have hne : n ≠ m := by
        intro hEq; rw [hEq, hl] at h; exact Option.noConfusion h
      rw [updateCalls_cons_some hm n hid ns h, List.filter_cons]
      simp only [isUpdateFor_update, beq_iff_eq, hne, if_false]
      exact ih

theorem updateCalls_filter_of_mem (hm : List (String × String)) (m hid : String)
    (hl : lookupHost hm m = some hid) :
    ∀ nodes : List String, nodes.Nodup → m ∈ nodes →
      (updateCalls hm nodes).filter (isUpdateFor m) =
        [NEv.update m hid hostStageDone] := by
  intro nodes
  induction nodes with
  | nil => intro _ h; exact absurd h (List.not_mem_nil m)
  | cons n ns ih =>
    intro hnd hmem
    rcases List.nodup_cons.mp hnd with ⟨hnotin, hndns⟩
    by_cases hnm : n = m
    · subst hnm
      rw [updateCalls_cons_some hm n hid ns hl, List.filter_cons]
      simp only [isUpdateFor_update, beq_self_eq_true, if_true]
      rw [updateCalls_filter_of_not_mem hm n ns hnotin]
    · have hmem' : m ∈ ns := by
        cases List.mem_cons.mp hmem with
        | inl h => exact absurd h.symm hnm
        | inr h => exact h
      cases h : lookupHost hm n with
      | none => rw [updateCalls_cons_none hm n ns h]; exact ih hndns hmem'
      | some hid2 =>
        rw [updateCalls_cons_some hm n hid2 ns h, List.filter_cons]
        simp only [isUpdateFor_update, beq_iff_eq, hnm, if_false]
        exact ih hndns hmem'

theorem updateCalls_stage (hm : List (String × String)) (nodes : List String) :
    ∀ e ∈ updateCalls hm nodes, ∃ n hid, e = NEv.update n hid hostStageDone := by
  intro e he
  simp only [updateCalls, List.mem_filterMap] at he
  rcases he with ⟨n, _, hmap⟩
  cases h : lookupHost hm n with
  | none => rw [h] at hmap; simp at hmap
  | some hid =>
    rw [h] at hmap
    simp at hmap
    exact ⟨n, hid, hmap.symm⟩

theorem runNodeLoop_eq_findIdx (its : List NodeLoopIter) :
    runNodeLoop its = its.findIdx? (fun it => it.hosts.isEmpty) := by
  induction its with
  | nil => rfl
  | cons it its ih =>
    by_cases h : it.hosts.isEmpty
    · simp [runNodeLoop, List.findIdx?_cons, h]
    · simp [runNodeLoop, List.findIdx?_cons, h, ih]

/-! ## Claim theorems for the node status reconciler -/

/-- Claim C1 (amended): the `WaitAndUpdateNodesStatus` loop `break`s exactly at
the first iteration whose `GetHosts` result map is empty, regardless of whether
that `GetHosts` call (or any other call of the iteration) reported an error:
the error is only logged, and the `len(...) == 0` check runs on the returned
map either way.  Termination is therefore a function of the returned maps
alone — changing every iteration's error flag arbitrarily changes nothing. -/
theorem nodeLoop_terminates_iff_empty_map (its : List NodeLoopIter) :
    runNodeLoop its = its.findIdx? (fun it => it.hosts.isEmpty)
    ∧ ∀ errs : NodeLoopIter → Bool,
        runNodeLoop (its.map (fun it => { it with hostsErr := errs it }))
          = runNodeLoop its := by
  refine ⟨runNodeLoop_eq_findIdx its, fun errs => ?_⟩
  rw [runNodeLoop_eq_findIdx, runNodeLoop_eq_findIdx, List.findIdx?_map]
  rfl

/-- Claim C1 counterexample: an iteration in which the pending-host query
failed (`hostsErr = true`, the client returning a nil/empty map alongside the
error) makes the loop terminate at that very iteration — refuting "it never
terminates on an iteration in which the query failed". -/
theorem nodeLoop_terminates_on_failed_query :
    (NodeLoopIter.mk [] true none).hostsErr = true
    ∧ runNodeLoop [NodeLoopIter.mk [] true none] = some 0 :=
  ⟨rfl, rfl⟩

/-- Claim C5: in one reconciliation pass over the live node list, every pending
host whose name matches a (unique) live node name receives exactly one
stage-update call, to stage `Done`; a name matching no live node produces no
call; a name not bound in the pending map (in particular any host in an
excluded stage, which `GetHosts(ignoreStatuses)` leaves out of the map)
produces no call; and every call issued is a `Done` stage update. -/
theorem nodeUpdatePass_calls (hm : List (String × String)) (nodes : List String)
    (hnd : nodes.Nodup)
    (hmatch : ∀ p ∈ hm, p.1 ∈ nodes) :
    (∀ p ∈ hm, ∀ hid, lookupHost hm p.1 = some hid →
        (updateCalls hm nodes).filter (isUpdateFor p.1)
          = [NEv.update p.1 hid hostStageDone])
    ∧ (∀ n, n ∉ nodes → (updateCalls hm nodes).filter (isUpdateFor n) = [])
    ∧ (∀ n, lookupHost hm n = none →
        (updateCalls hm nodes).filter (isUpdateFor n) = [])
    ∧ (∀ e ∈ updateCalls hm nodes, ∃ n hid, e = NEv.update n hid hostStageDone) := by
  refine ⟨?_, ?_, ?_, updateCalls_stage hm nodes⟩
  · intro p hp hid hl
    exact updateCalls_filter_of_mem hm p.1 hid hl nodes hnd (hmatch p hp)
  · intro n hn
    exact updateCalls_filter_of_not_mem hm n nodes hn
  · intro n hl
    exact updateCalls_filter_of_lookup_none hm n hl nodes

/-- Witness for C5, the spec's scenario: pending map `{A ↦ h1}` (host B being
`installed` is excluded from the map), live nodes `A` and `C`: exactly one
call, for `A`, to stage `Done`. -/
theorem nodeUpdatePass_calls_witness :
    (updateCalls [("A", "h1")] ["A", "C"]).filter (isUpdateFor "A")
      = [NEv.update "A" "h1" hostStageDone] :=
  (nodeUpdatePass_calls [("A", "h1")] ["A", "C"] (by decide) (by decide)).1
    ("A", "h1") (by decide) "h1" (by decide)

/-- Claim C7 (amended): on a non-terminating iteration the Configuring-Status
helper (`updateConfiguringStatusIfNeeded`, with the current pending-host map)
is invoked after the per-host update pass exactly when the node-list fetch
succeeded; when `ListNodes` errors the code executes `continue`, skipping the
rest of the iteration — including the helper call. -/
theorem configuringHelper_called_iff_nodes_fetched (it : NodeLoopIter) :
    (∀ ns, it.nodes = some ns →
        nodeIterEvents it
          = updateCalls it.hosts ns ++ [NEv.configuringHelper it.hosts])
    ∧ (it.nodes = none → nodeIterEvents it = []) := by
  constructor
  · intro ns hns
    simp [nodeIterEvents, hns]
  · intro hn
    simp [nodeIterEvents, hn]

/-- Witness for C7 (amended) at a concrete iteration whose node fetch succeeds:
the iteration's trace ends with the helper invocation. -/
theorem configuringHelper_called_witness :
    nodeIterEvents (NodeLoopIter.mk [("A", "h1")] false (some ["A"]))
      = updateCalls [("A", "h1")] ["A"]
          ++ [NEv.configuringHelper [("A", "h1")]] :=
  (configuringHelper_called_iff_nodes_fetched
      (NodeLoopIter.mk [("A", "h1")] false (some ["A"]))).1 ["A"] rfl

/-- Claim C7 counterexample: a non-terminating iteration (host map non-empty)
whose `ListNodes` call fails produces no events at all — in particular the
Configuring-Status helper is NOT invoked, refuting "it is invoked even on
iterations where the node-list fetch fails". -/
theorem configuringHelper_skipped_on_fetch_failure :
    (NodeLoopIter.mk [("A", "h1")] false none).hosts.isEmpty = false
    ∧ (NodeLoopIter.mk [("A", "h1")] false none).nodes = none
    ∧ nodeIterEvents (NodeLoopIter.mk [("A", "h1")] false none) = [] :=
  ⟨rfl, rfl, rfl⟩

/-! ## Bare-Metal-Host Status Synchronizer (`updateBMHStatus`) -/

/-- `metal3v1alpha1.BareMetalHostStatus` as far as this code inspects it: the
`LastUpdated` timestamp (`0` modelling the Go zero time, for which
`IsZero()` is true) and the rest of the decoded document, opaque here. -/
structure BMHStatus where
  lastUpdated : Nat
  payload : String
deriving DecidableEq, Repr

/-- A `metal3v1alpha1.BareMetalHost` as far as this code inspects it: its
name, the value of the `metal3v1alpha1.StatusAnnotation` key of its
annotation map (`""` both when the key is absent and when it is empty — Go
map indexing returns `""` for a missing key, and the code treats the two
alike), and its status sub-resource. -/
structure BMH where
  name : String
  statusAnn : String
  status : BMHStatus
deriving DecidableEq, Repr

/-- Oracle environment for one `updateBMHStatus` pass: `decode` models
`json.Unmarshal` inside `unmarshalStatusAnnotation` (`none` = decode error),
`commitOk`/`updateOk` give the outcome of the `UpdateBMHStatus` /
`UpdateBMH` call for the named host, and `now` models `metav1.Now()`. -/
structure BMHEnv where
  decode : String → Option BMHStatus
  commitOk : String → Bool
  updateOk : String → Bool
  now : Nat

/-- The timestamp defaulting in `updateBMHStatus`: if the decoded status has a
zero `LastUpdated`, set it to the current time before the commit; otherwise
leave the decoded status untouched. -/
def stampStatus (now : Nat) (st : BMHStatus) : BMHStatus :=
  if st.lastUpdated = 0 then { st with lastUpdated := now } else st

/-- Observable Kubernetes calls of the loop body of `updateBMHStatus`:
`commit name st ok` is `c.kc.UpdateBMHStatus(&bmh)` writing status `st` with
outcome `ok`; `removeAnn name ok` is the `c.kc.UpdateBMH(&bmh)` call made
after `delete(annotations, ...)`, persisting the dropped annotation. -/
inductive BEv where
  | commit (name : String) (st : BMHStatus) (ok : Bool)
  | removeAnn (name : String) (ok : Bool)
deriving DecidableEq, Repr

/-- The loop body of `updateBMHStatus` for one host, returning the host's
persisted state after the iteration and the calls issued.  Skips when the
status annotation is empty/absent or fails to decode; otherwise stamps a
missing timestamp, commits the status (on failure: `continue`, nothing
persisted), and only then deletes the annotation and persists that via
`UpdateBMH` (on failure the server-side object keeps its annotation). -/
def syncBMH (env : BMHEnv) (bmh : BMH) : BMH × List BEv :=
  if bmh.statusAnn = "" then (bmh, [])
  else
    match env.decode bmh.statusAnn with
    | none => (bmh, [])
    | some st =>
      let st' := stampStatus env.now st
      if env.commitOk bmh.name then
        if env.updateOk bmh.name then
          ({ bmh with status := st', statusAnn := "" },
           [BEv.commit bmh.name st' true, BEv.removeAnn bmh.name true])
        else
          ({ bmh with status := st' },
           [BEv.commit bmh.name st' true, BEv.removeAnn bmh.name false])
      else
        (bmh, [BEv.commit bmh.name st' false])

/-- The whole `updateBMHStatus` pass over the listed hosts: per-host results,
the concatenated call trace, and the returned `allUpdated` flag — which the
code sets to `false` as soon as any host carries a status annotation, before
even attempting to decode it. -/
def updateBMHStatus (env : BMHEnv) (bmhs : List BMH) :
    List BMH × List BEv × Bool :=
  (bmhs.map (fun b => (syncBMH env b).1),
   bmhs.flatMap (fun b => (syncBMH env b).2),
   bmhs.all (fun b => b.statusAnn == ""))

/-! ## Claim theorems for the BMH synchronizer -/

/-- Claim C3 (amended): for a host whose status annotation decodes
successfully and whose status commit and annotation removal both succeed, one
pass leaves the host with no status annotation and with its status
sub-resource equal to the decoded payload with a zero/absent last-updated
timestamp replaced by the current time (`stampStatus`; a payload with a
non-zero timestamp is committed verbatim) — and a second pass on the
resulting host performs no call and no mutation. -/
theorem syncBMH_converges (env : BMHEnv) (b : BMH) (st : BMHStatus)
    (hann : b.statusAnn ≠ "")
    (hdec : env.decode b.statusAnn = some st)
    (hc : env.commitOk b.name = true)
    (hu : env.updateOk b.name = true) :
    (syncBMH env b).1.statusAnn = ""
    ∧ (syncBMH env b).1.status = stampStatus env.now st
    ∧ syncBMH env (syncBMH env b).1 = ((syncBMH env b).1, []) := by
  have h1 : syncBMH env b
      = ({ b with status := stampStatus env.now st, statusAnn := "" },
         [BEv.commit b.name (stampStatus env.now st) true,
          BEv.removeAnn b.name true]) := by
    simp [syncBMH, hann, hdec, hc, hu]
  refine ⟨by rw [h1], by rw [h1], ?_⟩
  rw [h1]
  simp [syncBMH]

/-- Witness for C3 (amended): a concrete host whose annotation decodes to a
status with a zero timestamp; both writes succeed. -/
theorem syncBMH_converges_witness :
    (syncBMH
        (BMHEnv.mk (fun s => if s = "ann" then some (BMHStatus.mk 0 "p") else none)
          (fun _ => true) (fun _ => true) 5)
        (BMH.mk "bmh1" "ann" (BMHStatus.mk 0 "init"))).1.statusAnn = ""
    ∧ (syncBMH
        (BMHEnv.mk (fun s => if s = "ann" then some (BMHStatus.mk 0 "p") else none)
          (fun _ => true) (fun _ => true) 5)
        (BMH.mk "bmh1" "ann" (BMHStatus.mk 0 "init"))).1.status
        = stampStatus 5 (BMHStatus.mk 0 "p")
    ∧ syncBMH
        (BMHEnv.mk (fun s => if s = "ann" then some (BMHStatus.mk 0 "p") else none)
          (fun _ => true) (fun _ => true) 5)
        ((syncBMH
          (BMHEnv.mk (fun s => if s = "ann" then some (BMHStatus.mk 0 "p") else none)
            (fun _ => true) (fun _ => true) 5)
          (BMH.mk "bmh1" "ann" (BMHStatus.mk 0 "init"))).1)
        = ((syncBMH
            (BMHEnv.mk (fun s => if s = "ann" then some (BMHStatus.mk 0 "p") else none)
              (fun _ => true) (fun _ => true) 5)
            (BMH.mk "bmh1" "ann" (BMHStatus.mk 0 "init"))).1, []) :=
  syncBMH_converges
    (BMHEnv.mk (fun s => if s = "ann" then some (BMHStatus.mk 0 "p") else none)
      (fun _ => true) (fun _ => true) 5)
    (BMH.mk "bmh1" "ann" (BMHStatus.mk 0 "init"))
    (BMHStatus.mk 0 "p") (by decide) (by simp) rfl rfl

/-- Claim C3 counterexample: with the decoded payload carrying a zero
last-updated timestamp, the status committed (and persisted) by a successful
pass has `lastUpdated = now` (here `5`), not the decoded payload's `0` — so
"its status sub-resource equals the decoded payload" fails as stated. -/
theorem syncBMH_status_differs_from_payload :
    (BMHEnv.mk (fun s => if s = "ann" then some (BMHStatus.mk 0 "p") else none)
        (fun _ => true) (fun _ => true) 5).decode "ann"
      = some (BMHStatus.mk 0 "p")
    ∧ (syncBMH
        (BMHEnv.mk (fun s => if s = "ann" then some (BMHStatus.mk 0 "p") else none)
          (fun _ => true) (fun _ => true) 5)
        (BMH.mk "bmh1" "ann" (BMHStatus.mk 0 "init"))).1.status.lastUpdated = 5
    ∧ (BMHStatus.mk 0 "p").lastUpdated = 0
    ∧ ((syncBMH
        (BMHEnv.mk (fun s => if s = "ann" then some (BMHStatus.mk 0 "p") else none)
          (fun _ => true) (fun _ => true) 5)
        (BMH.mk "bmh1" "ann" (BMHStatus.mk 0 "init"))).1.status
          == BMHStatus.mk 0 "p") = false := by
  refine ⟨by simp, ?_, rfl, ?_⟩ <;> simp [syncBMH, stampStatus]

/-- Claim C4: per host, the annotation-removal call happens only after a
successful status commit — when the commit fails nothing is removed (no
`UpdateBMH` call at all) and the host is left untouched; when the removal
call itself fails, the persisted host keeps its annotation for a later
retry. -/
theorem syncBMH_removal_after_commit (env : BMHEnv) (b : BMH) :
    (env.commitOk b.name = false →
        (∀ ok, BEv.removeAnn b.name ok ∉ (syncBMH env b).2)
        ∧ (syncBMH env b).1 = b)
    ∧ (∀ ok, BEv.removeAnn b.name ok ∈ (syncBMH env b).2 →
        ∃ st, (syncBMH env b).2
          = [BEv.commit b.name st true, BEv.removeAnn b.name ok])
    ∧ (env.updateOk b.name = false →
        (syncBMH env b).1.statusAnn = b.statusAnn) := by
  by_cases hann : b.statusAnn = ""
  · refine ⟨fun _ => ⟨fun ok => ?_, ?_⟩, fun ok hok => ?_, fun _ => ?_⟩ <;>
      simp [syncBMH, hann] at *
  · cases hdec : env.decode b.statusAnn with
    | none =>
      refine ⟨fun _ => ⟨fun ok => ?_, ?_⟩, fun ok hok => ?_, fun _ => ?_⟩ <;>
        simp [syncBMH, hann, hdec] at *
    | some st =>
      by_cases hc : env.commitOk b.name
      · by_cases hu : env.updateOk b.name
        · have hev : (syncBMH env b).2
              = [BEv.commit b.name (stampStatus env.now st) true,
                 BEv.removeAnn b.name true] := by
            simp [syncBMH, hann, hdec, hc, hu]
          refine ⟨fun hcf => absurd hc (by simp [hcf]), fun ok hok => ?_,
            fun huf => absurd hu (by simp [huf])⟩
          rw [hev] at hok
          have hok' : ok = true := by simpa using hok
          exact ⟨stampStatus env.now st, by rw [hev, hok']⟩
        · have hev : (syncBMH env b).2
              = [BEv.commit b.name (stampStatus env.now st) true,
                 BEv.removeAnn b.name false] := by
            simp [syncBMH, hann, hdec, hc, hu]
          refine ⟨fun hcf => absurd hc (by simp [hcf]), fun ok hok => ?_, fun _ => ?_⟩
          · rw [hev] at hok
            have hok' : ok = false := by simpa using hok
            exact ⟨stampStatus env.now st, by rw [hev, hok']⟩
          · simp [syncBMH, hann, hdec, hc, hu]
      · refine ⟨fun _ => ⟨fun ok => ?_, ?_⟩, fun ok hok => ?_, fun _ => ?_⟩ <;>
          simp [syncBMH, hann, hdec, hc] at *

/-- Witness for C4 at a concrete host whose status commit fails: no removal
call is issued and the host is unchanged. -/
theorem syncBMH_removal_after_commit_witness :
    (∀ ok, BEv.removeAnn "bmh1" ok ∉
        (syncBMH
          (BMHEnv.mk (fun _ => some (BMHStatus.mk 1 "p"))
            (fun _ => false) (fun _ => true) 5)
          (BMH.mk "bmh1" "ann" (BMHStatus.mk 0 "init"))).2)
    ∧ (syncBMH
        (BMHEnv.mk (fun _ => some (BMHStatus.mk 1 "p"))
          (fun _ => false) (fun _ => true) 5)
        (BMH.mk "bmh1" "ann" (BMHStatus.mk 0 "init"))).1
      = BMH.mk "bmh1" "ann" (BMHStatus.mk 0 "init") :=
  (syncBMH_removal_after_commit
    (BMHEnv.mk (fun _ => some (BMHStatus.mk 1 "p"))
      (fun _ => false) (fun _ => true) 5)
    (BMH.mk "bmh1" "ann" (BMHStatus.mk 0 "init"))).1 rfl

/-- Claim C6: whenever the annotation decodes, the status handed to the commit
call is `stampStatus env.now st`: a zero/absent last-updated timestamp is
replaced by the current (non-zero) time before the commit, while a non-zero
timestamp leaves the payload committed unmodified. -/
theorem syncBMH_stamps_timestamp (env : BMHEnv) (b : BMH) (st : BMHStatus)
    (hann : b.statusAnn ≠ "")
    (hdec : env.decode b.statusAnn = some st)
    (hnow : env.now ≠ 0) :
    BEv.commit b.name (stampStatus env.now st) (env.commitOk b.name)
        ∈ (syncBMH env b).2
    ∧ (stampStatus env.now st).lastUpdated ≠ 0
    ∧ (st.lastUpdated = 0 → (stampStatus env.now st).lastUpdated = env.now)
    ∧ (st.lastUpdated ≠ 0 → stampStatus env.now st = st) := by
  refine ⟨?_, ?_, fun h0 => by simp [stampStatus, h0], fun h0 => by simp [stampStatus, h0]⟩
  · by_cases hc : env.commitOk b.name
    · by_cases hu : env.updateOk b.name <;>
        simp [syncBMH, hann, hdec, hc, hu]
    · simp [syncBMH, hann, hdec, hc]
  · by_cases h0 : st.lastUpdated = 0 <;> simp [stampStatus, h0, hnow]

/-- Witness for C6, mirroring the spec's scenario of an annotation whose
status has an empty last-updated field: the commit call carries timestamp
`5`, not `0`. -/
theorem syncBMH_stamps_timestamp_witness :
    BEv.commit "bmh1"
        (stampStatus 5 (BMHStatus.mk 0 "p"))
        ((BMHEnv.mk (fun s => if s = "ann" then some (BMHStatus.mk 0 "p") else none)
          (fun _ => true) (fun _ => true) 5).commitOk "bmh1")
      ∈ (syncBMH
          (BMHEnv.mk (fun s => if s = "ann" then some (BMHStatus.mk 0 "p") else none)
            (fun _ => true) (fun _ => true) 5)
          (BMH.mk "bmh1" "ann" (BMHStatus.mk 0 "init"))).2
    ∧ (stampStatus 5 (BMHStatus.mk 0 "p")).lastUpdated ≠ 0
    ∧ ((BMHStatus.mk 0 "p").lastUpdated = 0 →
        (stampStatus 5 (BMHStatus.mk 0 "p")).lastUpdated = 5)
    ∧ ((BMHStatus.mk 0 "p").lastUpdated ≠ 0 →
        stampStatus 5 (BMHStatus.mk 0 "p") = BMHStatus.mk 0 "p") :=
  syncBMH_stamps_timestamp
    (BMHEnv.mk (fun s => if s = "ann" then some (BMHStatus.mk 0 "p") else none)
      (fun _ => true) (fun _ => true) 5)
    (BMH.mk "bmh1" "ann" (BMHStatus.mk 0 "init"))
    (BMHStatus.mk 0 "p") (by decide) (by simp) (by decide)

/-! ## Post-Install Finalizer (`PostInstallConfigs`) -/

/-- Observable calls of `PostInstallConfigs` and the helpers it runs in order:
cluster-status polls of the gate loop, the config-map fetch / ingress-CA
upload pair of `addRouterCAToClusterCA`, the `UnPatchEtcd` attempts of
`unpatchEtcd`, the console-pod polls of `waitForConsole` (carrying the listed
pod phases, `none` = `GetPods` error), and the `CompleteInstallation` attempts
of `sendCompleteInstallation` (outcome, success flag, error string). -/
inductive Ev where
  | clusterQuery (st : Option String)
  | cmFetch (data : Option String)
  | caUpload (data : String) (ok : Bool)
  | etcdUnpatch (ok : Bool)
  | consolePoll (pods : Option (List String))
  | complete (ok : Bool) (success : Bool) (info : String)
deriving DecidableEq, Repr

/-- The gate loop at the top of `PostInstallConfigs`: poll `GetCluster`
(`none` = error, which only logs and `continue`s) until the status reads
`finalizing`, then `break`.  Returns the observed responses up to and
including the first `finalizing` one, or `none` if the responses run out. -/
def postGate : List (Option String) → Option (List (Option String))
  | [] => none
  | r :: rs =>
    if r = some clusterStatusFinalizing then some [r]
    else (postGate rs).map (fun t => r :: t)

/-- `addRouterCAToClusterCA`: per attempt, fetch the `default-ingress-cert`
config map (`none` = error → `continue`); on success upload its
`ca-bundle.crt` value (missing key reads as `""` in Go) to the inventory; an
upload error retries the whole fetch-then-upload pair. -/
def addRouterCAToClusterCA : List (Option String × Bool) → Option (List Ev)
  | [] => none
  | (none, _) :: rs => (addRouterCAToClusterCA rs).map (fun t => Ev.cmFetch none :: t)
  | (some d, true) :: _ => some [Ev.cmFetch (some d), Ev.caUpload d true]
  | (some d, false) :: rs =>
    (addRouterCAToClusterCA rs).map
      (fun t => Ev.cmFetch (some d) :: Ev.caUpload d false :: t)

/-- `unpatchEtcd`: call `UnPatchEtcd` until it succeeds. -/
def unpatchEtcd : List Bool → Option (List Ev)
  | [] => none
  | true :: _ => some [Ev.etcdUnpatch true]
  | false :: rs => (unpatchEtcd rs).map (fun t => Ev.etcdUnpatch false :: t)

/-- `waitForConsole`: list console pods (`none` = error → `continue`) until
one of them is in phase `Running`. -/
def waitForConsole : List (Option (List String)) → Option (List Ev)
  | [] => none
  | none :: rs => (waitForConsole rs).map (fun t => Ev.consolePoll none :: t)
  | some phases :: rs =>
    if phases.any (fun p => p == podRunning) then some [Ev.consolePoll (some phases)]
    else (waitForConsole rs).map (fun t => Ev.consolePoll (some phases) :: t)

/-- `sendCompleteInstallation(isSuccess, errorInfo)`: call
`CompleteInstallation(ClusterID, isSuccess, errorInfo)` until it is
accepted. -/
def sendCompleteInstallation (isSuccess : Bool) (errorInfo : String) :
    List Bool → Option (List Ev)
  | [] => none
  | true :: _ => some [Ev.complete true isSuccess errorInfo]
  | false :: rs =>
    (sendCompleteInstallation isSuccess errorInfo rs).map
      (fun t => Ev.complete false isSuccess errorInfo :: t)

/-- Oracle responses consumed by one run of `PostInstallConfigs`, one list per
external call site. -/
structure PostEnv where
  clusterResps : List (Option String)
  caResps : List (Option String × Bool)
  etcdResps : List Bool
  consoleResps : List (Option (List String))
  completeResps : List Bool

/-- `PostInstallConfigs`: the finalizing gate, then — in this order and each
exactly once — `addRouterCAToClusterCA`, `unpatchEtcd`, `waitForConsole` and
`sendCompleteInstallation(true, "")`.  `some trace` is the full call trace of
a run whose every retry loop eventually succeeds on the given responses. -/
def PostInstallConfigs (env : PostEnv) : Option (List Ev) :=
  (postGate env.clusterResps).bind fun qs =>
  (addRouterCAToClusterCA env.caResps).bind fun e2 =>
  (unpatchEtcd env.etcdResps).bind fun e3 =>
  (waitForConsole env.consoleResps).bind fun e4 =>
  (sendCompleteInstallation true "" env.completeResps).map fun e5 =>
  qs.map Ev.clusterQuery ++ e2 ++ e3 ++ e4 ++ e5

/-- Events belonging to the ingress-CA step. -/
def Ev.isCaStep : Ev → Bool
  | .cmFetch _ => true
  | .caUpload _ _ => true
  | _ => false

/-- Events belonging to the etcd-unpatch step. -/
def Ev.isEtcdStep : Ev → Bool
  | .etcdUnpatch _ => true
  | _ => false

/-- Events belonging to the console-wait step. -/
def Ev.isConsoleStep : Ev → Bool
  | .consolePoll _ => true
  | _ => false

/-- An accepted `CompleteInstallation` report. -/
def Ev.isAcceptedComplete : Ev → Bool
  | .complete true _ _ => true
  | _ => false

theorem postGate_spec (rs : List (Option String)) (qs : List (Option String))
    (h : postGate rs = some qs) :
    qs ≠ []
    ∧ qs.getLast? = some (some clusterStatusFinalizing)
    ∧ ∀ q ∈ qs.dropLast, q ≠ some clusterStatusFinalizing := by
  induction rs generalizing qs with
  | nil => exact absurd h (by simp [postGate])
  | cons r rs ih =>
    by_cases hr : r = some clusterStatusFinalizing
    · rw [postGate, if_pos hr] at h
      cases h
      subst hr
      exact ⟨by simp, by simp, by simp⟩
    · rw [postGate, if_neg hr] at h
      cases ht : postGate rs with
      | none => rw [ht] at h; exact absurd h (by simp)
      | some t =>
        rw [ht] at h
        injection h with h
        subst h
        obtain ⟨htne, hlast, hmem⟩ := ih t ht
        obtain ⟨t0, ts, rfl⟩ := List.exists_cons_of_ne_nil htne
        refine ⟨by simp, by simpa using hlast, ?_⟩
        intro q hq
        rw [List.dropLast_cons₂] at hq
        cases List.mem_cons.mp hq with
        | inl h => exact h ▸ hr
        | inr h => exact hmem q h

theorem addRouterCAToClusterCA_kinds (rs : List (Option String × Bool))
    (s : List Ev) (h : addRouterCAToClusterCA rs = some s) :
    ∀ e ∈ s, e.isCaStep = true := by
  induction rs generalizing s with
  | nil => exact Option.noConfusion h
  | cons r rs ih =>
    obtain ⟨cm, up⟩ := r
    cases cm with
    | none =>
      cases ht : addRouterCAToClusterCA rs with
      | none => rw [addRouterCAToClusterCA, ht] at h; exact Option.noConfusion h
      | some t =>
        rw [addRouterCAToClusterCA, ht] at h
        injection h with h
        subst h
        intro e he
        rcases List.mem_cons.mp he with h | h
        · exact h ▸ rfl
        · exact ih t ht e h
    | some d =>
      cases up with
      | true =>
        injection h with h
        subst h
        intro e he
        rcases List.mem_cons.mp he with h | h
        · exact h ▸ rfl
        · simp only [List.mem_singleton] at h
          exact h ▸ rfl
      | false =>
        cases ht : addRouterCAToClusterCA rs with
        | none => rw [addRouterCAToClusterCA, ht] at h; exact Option.noConfusion h
        | some t =>
          rw [addRouterCAToClusterCA, ht] at h
          injection h with h
          subst h
          intro e he
          rcases List.mem_cons.mp he with h | h
          · exact h ▸ rfl
          · rcases List.mem_cons.mp h with h | h
            · exact h ▸ rfl
            · exact ih t ht e h

theorem unpatchEtcd_kinds (rs : List Bool) (s : List Ev)
    (h : unpatchEtcd rs = some s) : ∀ e ∈ s, e.isEtcdStep = true := by
  induction rs generalizing s with
  | nil => exact Option.noConfusion h
  | cons ok rs ih =>
    cases ok with
    | true =>
      injection h with h
      subst h
      intro e he
      simp only [List.mem_singleton] at he
      exact he ▸ rfl
    | false =>
      cases ht : unpatchEtcd rs with
      | none => rw [unpatchEtcd, ht] at h; exact Option.noConfusion h
      | some t =>
        rw [unpatchEtcd, ht] at h
        injection h with h
        subst h
        intro e he
        rcases List.mem_cons.mp he with h | h
        · exact h ▸ rfl
        · exact ih t ht e h

theorem waitForConsole_kinds (rs : List (Option (List String))) (s : List Ev)
    (h : waitForConsole rs = some s) : ∀ e ∈ s, e.isConsoleStep = true := by
  induction rs generalizing s with
  | nil => exact Option.noConfusion h
  | cons r rs ih =>
    cases r with
    | none =>
      cases ht : waitForConsole rs with
      | none => rw [waitForConsole, ht] at h; exact Option.noConfusion h
      | some t =>
        rw [waitForConsole, ht] at h
        injection h with h
        subst h
        intro e he
        rcases List.mem_cons.mp he with h | h
        · exact h ▸ rfl
        · exact ih t ht e h
    | some phases =>
      by_cases hp : phases.any (fun p => p == podRunning) = true
      · rw [waitForConsole, if_pos hp] at h
        injection h with h
        subst h
        intro e he
        simp only [List.mem_singleton] at he
        exact he ▸ rfl
      · rw [waitForConsole, if_neg hp] at h
        cases ht : waitForConsole rs with
        | none => rw [ht] at h; exact Option.noConfusion h
        | some t =>
          rw [ht] at h
          injection h with h
          subst h
          intro e he
          rcases List.mem_cons.mp he with h | h
          · exact h ▸ rfl
          · exact ih t ht e h

theorem sendCompleteInstallation_spec (isSuccess : Bool) (errorInfo : String)
    (rs : List Bool) (s : List Ev)
    (h : sendCompleteInstallation isSuccess errorInfo rs = some s) :
    ∃ k, s = List.replicate k (Ev.complete false isSuccess errorInfo)
        ++ [Ev.complete true isSuccess errorInfo] := by
  induction rs generalizing s with
  | nil => exact Option.noConfusion h
  | cons ok rs ih =>
    cases ok with
    | true =>
      injection h with h
      subst h
      exact ⟨0, by simp⟩
    | false =>
      cases ht : sendCompleteInstallation isSuccess errorInfo rs with
      | none => rw [sendCompleteInstallation, ht] at h; exact Option.noConfusion h
      | some t =>
        rw [sendCompleteInstallation, ht] at h
        injection h with h
        subst h
        obtain ⟨k, rfl⟩ := ih t ht
        exact ⟨k + 1, by simp [List.replicate_succ]⟩

theorem filter_accepted_eq_nil (s : List Ev)
    (h : ∀ e ∈ s, e.isAcceptedComplete = false) :
    s.filter Ev.isAcceptedComplete = [] := by
  induction s with
  | nil => rfl
  | cons e s ih =>
    rw [List.filter_cons, h e (List.mem_cons_self e s)]
    simp only [Bool.false_eq_true, if_false]
    exact ih (fun x hx => h x (List.mem_cons_of_mem _ hx))

theorem isCaStep_not_accepted (e : Ev) (h : e.isCaStep = true) :
    e.isAcceptedComplete = false := by
  cases e <;> simp_all [Ev.isCaStep, Ev.isAcceptedComplete]

theorem isEtcdStep_not_accepted (e : Ev) (h : e.isEtcdStep = true) :
    e.isAcceptedComplete = false := by
  cases e <;> simp_all [Ev.isEtcdStep, Ev.isAcceptedComplete]

theorem isConsoleStep_not_accepted (e : Ev) (h : e.isConsoleStep = true) :
    e.isAcceptedComplete = false := by
  cases e <;> simp_all [Ev.isConsoleStep, Ev.isAcceptedComplete]

/-- An environment realizing the spec's scenario for the finalizer: cluster
status sequence `installing → finalizing`, then every later step succeeding
first try. -/
def finalizerDemoEnv : PostEnv :=
  PostEnv.mk [some "installing", some clusterStatusFinalizing]
    [(some "certdata", true)] [true] [some [podRunning]] [true]

/-- The trace `PostInstallConfigs` produces on `finalizerDemoEnv`. -/
def finalizerDemoTrace : List Ev :=
  [Ev.clusterQuery (some "installing"),
   Ev.clusterQuery (some clusterStatusFinalizing),
   Ev.cmFetch (some "certdata"), Ev.caUpload "certdata" true,
   Ev.etcdUnpatch true, Ev.consolePoll (some [podRunning]),
   Ev.complete true true ""]

/-! ## Claim theorems for the Post-Install Finalizer -/

/-- Claim C2: every successful run of `PostInstallConfigs` produces a trace
that is exactly: the gate's cluster-status polls — whose last observation is
the first `finalizing` one, no earlier poll having seen `finalizing` — then
only ingress-CA events (so step 2 is never attempted before `finalizing` was
read), then only etcd-unpatch events, then only console polls, then the
completion report attempts; exactly one completion report is accepted, and it
is the `complete(true, "")` at the very end of the trace. -/
theorem postInstall_steps_ordered (env : PostEnv) (t : List Ev)
    (h : PostInstallConfigs env = some t) :
    ∃ (qs : List (Option String)) (s2 s3 s4 : List Ev) (k : Nat),
      t = qs.map Ev.clusterQuery ++ s2 ++ s3 ++ s4
          ++ (List.replicate k (Ev.complete false true "")
              ++ [Ev.complete true true ""])
      ∧ qs.getLast? = some (some clusterStatusFinalizing)
      ∧ (∀ q ∈ qs.dropLast, q ≠ some clusterStatusFinalizing)
      ∧ (∀ e ∈ s2, e.isCaStep = true)
      ∧ (∀ e ∈ s3, e.isEtcdStep = true)
      ∧ (∀ e ∈ s4, e.isConsoleStep = true)
      ∧ t.filter Ev.isAcceptedComplete = [Ev.complete true true ""] := by
  cases hq : postGate env.clusterResps with
  | none => rw [PostInstallConfigs, hq] at h; exact Option.noConfusion h
  | some qs =>
  cases hca : addRouterCAToClusterCA env.caResps with
  | none => rw [PostInstallConfigs, hq, hca] at h; exact Option.noConfusion h
  | some e2 =>
  cases het : unpatchEtcd env.etcdResps with
  | none => rw [PostInstallConfigs, hq, hca, het] at h; exact Option.noConfusion h
  | some e3 =>
  cases hco : waitForConsole env.consoleResps with
  | none => rw [PostInstallConfigs, hq, hca, het, hco] at h; exact Option.noConfusion h
  | some e4 =>
  cases hcm : sendCompleteInstallation true "" env.completeResps with
  | none =>
    rw [PostInstallConfigs, hq, hca, het, hco, hcm] at h
    exact Option.noConfusion h
  | some e5 =>
  rw [PostInstallConfigs, hq, hca, het, hco, hcm] at h
  injection h with h
  subst h
  obtain ⟨hlast, hmem⟩ := (postGate_spec env.clusterResps qs hq).2
  have hs2 := addRouterCAToClusterCA_kinds env.caResps e2 hca
  have hs3 := unpatchEtcd_kinds env.etcdResps e3 het
  have hs4 := waitForConsole_kinds env.consoleResps e4 hco
  obtain ⟨k, rfl⟩ := sendCompleteInstallation_spec true "" env.completeResps e5 hcm
  refine ⟨qs, e2, e3, e4, k, rfl, hlast, hmem, hs2, hs3, hs4, ?_⟩
  have h1 : (qs.map Ev.clusterQuery).filter Ev.isAcceptedComplete = [] := by
    refine filter_accepted_eq_nil _ (fun e he => ?_)
    obtain ⟨q, _, rfl⟩ := List.mem_map.mp he
    rfl
  have h2 : e2.filter Ev.isAcceptedComplete = [] :=
    filter_accepted_eq_nil _ (fun e he => isCaStep_not_accepted e (hs2 e he))
  have h3 : e3.filter Ev.isAcceptedComplete = [] :=
    filter_accepted_eq_nil _ (fun e he => isEtcdStep_not_accepted e (hs3 e he))
  have h4 : e4.filter Ev.isAcceptedComplete = [] :=
    filter_accepted_eq_nil _ (fun e he => isConsoleStep_not_accepted e (hs4 e he))
  have h5 : (List.replicate k (Ev.complete false true "")).filter
      Ev.isAcceptedComplete = [] := by
    refine filter_accepted_eq_nil _ (fun e he => ?_)
    rw [List.eq_of_mem_replicate he]
    rfl
  simp only [List.filter_append, h1, h2, h3, h4, h5, List.nil_append]
  rfl

/-- Witness for C2: applying the ordering theorem to the spec's
`installing → finalizing` scenario with every later step succeeding. -/
theorem postInstall_steps_ordered_witness :
    ∃ (qs : List (Option String)) (s2 s3 s4 : List Ev) (k : Nat),
      finalizerDemoTrace = qs.map Ev.clusterQuery ++ s2 ++ s3 ++ s4
          ++ (List.replicate k (Ev.complete false true "")
              ++ [Ev.complete true true ""])
      ∧ qs.getLast? = some (some clusterStatusFinalizing)
      ∧ (∀ q ∈ qs.dropLast, q ≠ some clusterStatusFinalizing)
      ∧ (∀ e ∈ s2, e.isCaStep = true)
      ∧ (∀ e ∈ s3, e.isEtcdStep = true)
      ∧ (∀ e ∈ s4, e.isConsoleStep = true)
      ∧ finalizerDemoTrace.filter Ev.isAcceptedComplete
          = [Ev.complete true true ""] :=
  postInstall_steps_ordered finalizerDemoEnv finalizerDemoTrace (by rfl)

/-- Claim C10: every `CompleteInstallation` call a `PostInstallConfigs` run
issues — accepted or not — carries success flag `true` and an empty error
string; the finalizer never reports a failed installation. -/
theorem postInstall_reports_success_only (env : PostEnv) (t : List Ev)
    (h : PostInstallConfigs env = some t) :
    ∀ ok s i, Ev.complete ok s i ∈ t → s = true ∧ i = "" := by
  cases hq : postGate env.clusterResps with
  | none => rw [PostInstallConfigs, hq] at h; exact Option.noConfusion h
  | some qs =>
  cases hca : addRouterCAToClusterCA env.caResps with
  | none => rw [PostInstallConfigs, hq, hca] at h; exact Option.noConfusion h
  | some e2 =>
  cases het : unpatchEtcd env.etcdResps with
  | none => rw [PostInstallConfigs, hq, hca, het] at h; exact Option.noConfusion h
  | some e3 =>
  cases hco : waitForConsole env.consoleResps with
  | none => rw [PostInstallConfigs, hq, hca, het, hco] at h; exact Option.noConfusion h
  | some e4 =>
  cases hcm : sendCompleteInstallation true "" env.completeResps with
  | none =>
    rw [PostInstallConfigs, hq, hca, het, hco, hcm] at h
    exact Option.noConfusion h
  | some e5 =>
  rw [PostInstallConfigs, hq, hca, het, hco, hcm] at h
  injection h with h
  subst h
  have hs2 := addRouterCAToClusterCA_kinds env.caResps e2 hca
  have hs3 := unpatchEtcd_kinds env.etcdResps e3 het
  have hs4 := waitForConsole_kinds env.consoleResps e4 hco
  obtain ⟨k, rfl⟩ := sendCompleteInstallation_spec true "" env.completeResps e5 hcm
  intro ok s i hmem
  rcases List.mem_append.mp hmem with hmem | hmem
  · rcases List.mem_append.mp hmem with hmem | hmem
    · rcases List.mem_append.mp hmem with hmem | hmem
      · rcases List.mem_append.mp hmem with hmem | hmem
        · obtain ⟨q, _, hq2⟩ := List.mem_map.mp hmem
          exact Ev.noConfusion hq2
        · have := hs2 _ hmem
          simp [Ev.isCaStep] at this
      · have := hs3 _ hmem
        simp [Ev.isEtcdStep] at this
    · have := hs4 _ hmem
      simp [Ev.isConsoleStep] at this
  · rcases List.mem_append.mp hmem with hmem | hmem
    · have := List.eq_of_mem_replicate hmem
      injection this
      constructor <;> assumption
    · simp only [List.mem_singleton] at hmem
      injection hmem
      constructor <;> assumption

/-- Witness for C10: the accepted completion report of the demo run carries
`(true, "")`. -/
theorem postInstall_reports_success_only_witness :
    Ev.complete true true "" ∈ finalizerDemoTrace
    ∧ (true = true ∧ "" = "") :=
  ⟨by decide,
   postInstall_reports_success_only finalizerDemoEnv finalizerDemoTrace (by rfl)
     true true "" (by decide)⟩

/-! ## CSR Approver (`approveCsrs` / `isCsrApproved`) -/

/-- A `certificatesv1beta1.CertificateSigningRequest` as far as this code
inspects it: its name and the types of the conditions in
`csr.Status.Conditions`. -/
structure CSR where
  name : String
  conditions : List String
deriving DecidableEq, Repr

/-- `isCsrApproved`: scan the condition set for a condition of type
`CertificateApproved`. -/
def isCsrApproved (csr : CSR) : Bool :=
  csr.conditions.any (fun c => c == certificateApproved)

/-- `approveCsrs`: one pass over the listed CSRs, issuing
`c.kc.ApproveCsr(&csr)` for each CSR not already approved (the call's own
error is discarded).  Returns the names for which an approve call was
issued. -/
def approveCsrs (csrs : List CSR) : List String :=
  csrs.filterMap (fun csr => if isCsrApproved csr then none else some csr.name)

theorem approveCsrs_eq (csrs : List CSR) :
    approveCsrs csrs = (csrs.filter (fun c => !isCsrApproved c)).map CSR.name := by
  induction csrs with
  | nil => rfl
  | cons c cs ih =>
    cases hc : isCsrApproved c <;>
      simp [approveCsrs, List.filterMap_cons, List.filter_cons, hc] at * <;>
      exact ih

/-! ## Claim theorem for the CSR approver -/

/-- Claim C8: in an approval pass, a CSR already carrying an `Approved`
condition receives no approve call (and two consecutive passes over the same
list still issue none for it, the condition set being unchanged by not
calling), while each CSR without such a condition receives exactly one
approve call. -/
theorem approveCsrs_idempotent (csrs : List CSR)
    (hnd : (csrs.map CSR.name).Nodup) :
    ∀ csr ∈ csrs,
      (isCsrApproved csr = true →
          (approveCsrs csrs).count csr.name = 0
          ∧ (approveCsrs csrs ++ approveCsrs csrs).count csr.name = 0)
      ∧ (isCsrApproved csr = false →
          (approveCsrs csrs).count csr.name = 1) := by
  intro csr hcsr
  constructor
  · intro happ
    have hnot : csr.name ∉ approveCsrs csrs := by
      rw [approveCsrs_eq]
      intro hmem
      obtain ⟨csr2, hmem2, hname⟩ := List.mem_map.mp hmem
      obtain ⟨hcsr2, hnapp⟩ := List.mem_filter.mp hmem2
      have heq : csr2 = csr :=
        List.inj_on_of_nodup_map hnd hcsr2 hcsr hname
      rw [heq, happ] at hnapp
      exact Bool.noConfusion hnapp
    have h0 : (approveCsrs csrs).count csr.name = 0 :=
      List.count_eq_zero.mpr hnot
    exact ⟨h0, by rw [List.count_append, h0]⟩
  · intro hnapp
    rw [approveCsrs_eq]
    have hsub : ((csrs.filter (fun c => !isCsrApproved c)).map CSR.name).Sublist
        (csrs.map CSR.name) :=
      (List.filter_sublist csrs).map CSR.name
    have hnd2 : ((csrs.filter (fun c => !isCsrApproved c)).map CSR.name).Nodup :=
      hnd.sublist hsub
    have hmem : csr.name ∈ (csrs.filter (fun c => !isCsrApproved c)).map CSR.name :=
      List.mem_map.mpr ⟨csr, List.mem_filter.mpr ⟨hcsr, by rw [hnapp]; rfl⟩, rfl⟩
    exact List.count_eq_one_of_mem hnd2 hmem

/-- Witness for C8: a pass over one approved and one unapproved CSR issues no
call for the approved one (even run twice) and exactly one for the other. -/
theorem approveCsrs_idempotent_witness :
    ((approveCsrs [CSR.mk "csr1" [certificateApproved], CSR.mk "csr2" []]).count "csr1" = 0
      ∧ (approveCsrs [CSR.mk "csr1" [certificateApproved], CSR.mk "csr2" []]
          ++ approveCsrs [CSR.mk "csr1" [certificateApproved], CSR.mk "csr2" []]).count
            "csr1" = 0)
    ∧ (approveCsrs [CSR.mk "csr1" [certificateApproved], CSR.mk "csr2" []]).count
        "csr2" = 1 :=
  ⟨((approveCsrs_idempotent
        [CSR.mk "csr1" [certificateApproved], CSR.mk "csr2" []] (by decide))
      (CSR.mk "csr1" [certificateApproved]) (by decide)).1 (by decide),
   ((approveCsrs_idempotent
        [CSR.mk "csr1" [certificateApproved], CSR.mk "csr2" []] (by decide))
      (CSR.mk "csr2" []) (by decide)).2 (by decide)⟩

/-! ## Machine-config-server log fetch (`getMCSLogs`) -/

/-- The `for _, pod := range pods` accumulation loop of `getMCSLogs`: append
each pod's logs; on a `GetPodLogs` error return `("", nil)` immediately (the
error is only logged).  The second component is the returned `error`, `none`
standing for Go's `nil`. -/
def getMCSLogsGo (logsOf : String → Option String) :
    List String → String → String × Option String
  | [], acc => (acc, none)
  | p :: ps, acc =>
    match logsOf p with
    | none => ("", none)
    | some l => getMCSLogsGo logsOf ps (acc ++ l)

/-- `getMCSLogs`: list the machine-config-server pods (`none` = `GetPods`
errored, in which case the code returns `("", nil)` after logging), then
accumulate each pod's logs. -/
def getMCSLogs (pods : Option (List String))
    (logsOf : String → Option String) : String × Option String :=
  match pods with
  | none => ("", none)
  | some ps => getMCSLogsGo logsOf ps ""

/-- `updateConfiguringStatusIfNeeded`: abort (returning without calling
`common.SetConfiguringStatusForHosts`) iff `getMCSLogs` returned a non-nil
error; otherwise delegate with the fetched logs.  The Bool records whether the
delegate call was made, the String the logs it was handed. -/
def updateConfiguringStatusIfNeeded (pods : Option (List String))
    (logsOf : String → Option String) : Bool × String :=
  match getMCSLogs pods logsOf with
  | (logs, none) => (true, logs)
  | (_, some _) => (false, "")

theorem getMCSLogsGo_err (logsOf : String → Option String) :
    ∀ (ps : List String) (acc : String), (getMCSLogsGo logsOf ps acc).2 = none := by
  intro ps
  induction ps with
  | nil => intro acc; rfl
  | cons p ps ih =>
    intro acc
    cases h : logsOf p with
    | none => simp [getMCSLogsGo, h]
    | some l => simp [getMCSLogsGo, h]; exact ih (acc ++ l)

theorem getMCSLogsGo_fail (logsOf : String → Option String) :
    ∀ (ps : List String) (acc : String), (∃ p ∈ ps, logsOf p = none) →
      (getMCSLogsGo logsOf ps acc).1 = "" := by
  intro ps
  induction ps with
  | nil => intro acc h; exact absurd h (by simp)
  | cons p ps ih =>
    intro acc hex
    cases h : logsOf p with
    | none => simp [getMCSLogsGo, h]
    | some l =>
      obtain ⟨p2, hp2, hnone⟩ := hex
      rcases List.mem_cons.mp hp2 with heq | hmem
      · rw [heq, h] at hnone; exact Option.noConfusion hnone
      · simp only [getMCSLogsGo, h]
        exact ih (acc ++ l) ⟨p2, hmem, hnone⟩

/-! ## Claim theorem for the MCS log fetch -/

/-- Claim C9: `getMCSLogs` never returns a non-nil error; a pod-listing
failure yields `("", nil)`, and a failure of any single pod's log retrieval
yields an empty log string; consequently `updateConfiguringStatusIfNeeded`
always proceeds to its delegate (its early-return branch is dead). -/
theorem getMCSLogs_best_effort (pods : Option (List String))
    (logsOf : String → Option String) :
    (getMCSLogs pods logsOf).2 = none
    ∧ (pods = none → getMCSLogs pods logsOf = ("", none))
    ∧ (∀ ps, pods = some ps → (∃ p ∈ ps, logsOf p = none) →
        (getMCSLogs pods logsOf).1 = "")
    ∧ (updateConfiguringStatusIfNeeded pods logsOf).1 = true := by
  have herr : (getMCSLogs pods logsOf).2 = none := by
    cases pods with
    | none => rfl
    | some ps => exact getMCSLogsGo_err logsOf ps ""
  refine ⟨herr, fun hp => by rw [hp]; rfl, fun ps hp hex => ?_, ?_⟩
  · rw [hp]
    exact getMCSLogsGo_fail logsOf ps "" hex
  · rw [updateConfiguringStatusIfNeeded]
    rcases hres : getMCSLogs pods logsOf with ⟨logs, err⟩
    rw [hres] at herr
    cases herr
    rfl

/-- Witness for C9 at a concrete failing log retrieval: the fetch reports
empty logs with a nil error. -/
theorem getMCSLogs_best_effort_witness :
    (getMCSLogs (some ["mcs1"]) (fun _ => none)).1 = "" :=
  (getMCSLogs_best_effort (some ["mcs1"]) (fun _ => none)).2.2.1 ["mcs1"] rfl
    ⟨"mcs1", by simp, rfl⟩

end AssistedInstaller
